import Mathlib

/-!
Verification development for a small authoritative multiplayer
coin-collection game server (`server.py`).

The server's mutable globals are modelled as one `World` record; each
asynchronous unit of work (a connection registration, a delayed input
completion, one iteration of the game loop, one firing of the coin
spawner, a disconnect) becomes a pure state-transition function.
Python floats are modelled by exact rationals `ℚ`; the only genuinely
irrational computation — the unit-normalisation of the input velocity,
which divides by `math.hypot` — is modelled separately over `ℝ` as
`norm_input_vel`.  Random draws (`random.uniform`) become transition
parameters constrained by the validity predicate `ValidEv` to the
interval the code draws from.
-/

namespace CoinGame

/-! ### Configuration constants (server.py lines 4-16) -/

def TICK_RATE : ℚ := 20
def MAP_W : ℚ := 800
def MAP_H : ℚ := 500
def PLAYER_SPEED : ℚ := 180
def PLAYER_R : ℚ := 15
def COIN_R : ℚ := 10
def GAME_DURATION : ℚ := 180
def INTERMISSION : ℚ := 10

/-! ### Color mapping (server.py lines 33-35)

`get_color_for_pid` indexes a six-entry palette by `(pid - 1) % 6`.
Python's `%` on ints returns a non-negative result for a positive
modulus, exactly like `Int.emod`, so the pid is taken in `ℤ`. -/

def palette : List String :=
  [ "#2b85f0", "#ff4d4f", "#2bbf57", "#f07f2b", "#a02bf0", "#f02b85" ]

def get_color_for_pid (pid : ℤ) : String :=
  palette.getD ((pid - 1) % (palette.length : ℤ)).toNat ""

/-! ### Helpers (server.py line 38) -/

def clamp (v a b : ℚ) : ℚ := max a (min b v)

/-! ### State (server.py lines 18-27)

A `Player` is the per-pid record stored in the `players` dict (the
websocket session handle is owned by the transport layer and carries no
game state, so it is omitted).  The dict itself is an association list
in insertion order: Python dicts iterate in insertion order, new pids
are appended, and deletion preserves the order of the rest. -/

structure Player where
  x : ℚ
  y : ℚ
  vx : ℚ
  vy : ℚ
  score : Nat
  color : String
  deriving DecidableEq

structure World where
  players : List (Nat × Player)
  next_pid : Nat
  coin : Option (ℚ × ℚ)
  game_active : Bool
  game_end_time : ℚ
  intermission_end : ℚ
  last_winner : Option Nat
  deriving DecidableEq

def initWorld : World :=
  { players := [], next_pid := 1, coin := none, game_active := false,
    game_end_time := 0, intermission_end := 0, last_winner := none }

/-! ### Input processor (server.py lines 89-108)

`apply_input` first sleeps `LATENCY`, then returns silently when the
pid has been removed from `players`, otherwise writes the normalised
velocity.  The normalisation `vx /= hypot(vx, vy)` produces the
irrational `1/√2` on diagonals, so the exact value lives in `ℝ`
(`norm_input_vel` below); the `World`-level transition takes the
already-computed components as rational parameters. -/

noncomputable def hypot (a b : ℝ) : ℝ := Real.sqrt (a ^ 2 + b ^ 2)

noncomputable def norm_input_vel (up down left right : Bool) : ℝ × ℝ :=
  let vx : ℝ := (if left then -1 else 0) + (if right then 1 else 0)
  let vy : ℝ := (if up then -1 else 0) + (if down then 1 else 0)
  if vx ≠ 0 ∨ vy ≠ 0 then (vx / hypot vx vy, vy / hypot vx vy)
  else (vx, vy)

def apply_input (pid : Nat) (vx vy : ℚ) (w : World) : World :=
  if (w.players.lookup pid).isNone then w
  else
    { w with players := w.players.map fun pr =>
        if pr.1 = pid then (pr.1, { pr.2 with vx := vx, vy := vy }) else pr }

/-! ### Coin spawner (server.py lines 78-87)

One firing of the spawner's once-per-second loop: create a coin only if
a round is active and no coin exists; the random coordinates are
transition parameters. -/

def spawn_coin (cx cy : ℚ) (w : World) : World :=
  if w.game_active ∧ w.coin = none then { w with coin := some (cx, cy) } else w

/-! ### Round lifecycle (server.py lines 160-193) -/

def start_round (t : ℚ) (rs : Nat → ℚ × ℚ) (w : World) : World :=
  { w with
    players := w.players.map fun pr =>
      (pr.1, { pr.2 with score := 0, x := (rs pr.1).1, y := (rs pr.1).2,
                         vx := 0, vy := 0 }),
    coin := none,
    last_winner := none,
    intermission_end := 0,
    game_active := true,
    game_end_time := t + GAME_DURATION }

/-- The winner scan of `end_round` (lines 181-188): fold over the dict
in iteration order carrying `best_pid` (initially `None`) and
`best_score` (initially `-1`), replacing on a strictly greater score. -/
def findBest : List (Nat × Player) → Option Nat → ℤ → Option Nat × ℤ
  | [], best_pid, best_score => (best_pid, best_score)
  | (pid, p) :: rest, best_pid, best_score =>
    if best_score < (p.score : ℤ) then findBest rest (some pid) (p.score : ℤ)
    else findBest rest best_pid best_score

def end_round (t : ℚ) (w : World) : World :=
  { w with game_active := false,
           last_winner :=
             if w.players ≠ [] then (findBest w.players none (-1)).1 else none,
           coin := none,
           intermission_end := t + INTERMISSION }

/-! ### Connection handler, registration part (server.py lines 110-141) -/

/-- Lines 113-125: take the next pid (no recycling) and append the new
player record to the registry at a random spawn position. -/
def registerPlayer (x0 y0 : ℚ) (w : World) : World :=
  { w with
    players := w.players ++
      [(w.next_pid,
        { x := x0, y := y0, vx := 0, vy := 0, score := 0,
          color := get_color_for_pid (w.next_pid : ℤ) })],
    next_pid := w.next_pid + 1 }

def handle_connect (x0 y0 : ℚ) (t : ℚ) (rs : Nat → ℚ × ℚ) (w : World) : World :=
  if (registerPlayer x0 y0 w).game_active = false ∧
      1 ≤ (registerPlayer x0 y0 w).players.length then
    start_round t rs (registerPlayer x0 y0 w)
  else registerPlayer x0 y0 w

def handle_disconnect (pid : Nat) (w : World) : World :=
  { w with players := w.players.filter fun pr => pr.1 ≠ pid }

/-! ### Simulation tick (server.py lines 195-232)

One iteration of `game_loop`: `t` is the wall clock, `dt` the elapsed
time since the previous iteration, `rs` the random respawn positions a
`start_round` call would draw.  Broadcasting mutates no game state and
is omitted. -/

def move_player (dt : ℚ) (p : Player) : Player :=
  let x1 := p.x + p.vx * PLAYER_SPEED * dt
  let y1 := p.y + p.vy * PLAYER_SPEED * dt
  { p with x := clamp x1 PLAYER_R (MAP_W - PLAYER_R),
           y := clamp y1 PLAYER_R (MAP_H - PLAYER_R) }

/-- Distance test of line 214: `math.hypot(px - cx, py - cy) <= PLAYER_R + COIN_R`. -/
def collides (p : Player) (c : ℚ × ℚ) : Prop :=
  hypot ((p.x - c.1 : ℚ) : ℝ) ((p.y - c.2 : ℚ) : ℝ) ≤ ((PLAYER_R + COIN_R : ℚ) : ℝ)

theorem collides_iff_sq (p : Player) (c : ℚ × ℚ) :
    collides p c ↔ (p.x - c.1) ^ 2 + (p.y - c.2) ^ 2 ≤ (PLAYER_R + COIN_R) ^ 2 := by
  unfold collides hypot
  rw [Real.sqrt_le_left (by norm_num [PLAYER_R, COIN_R])]
  norm_cast

instance (p : Player) (c : ℚ × ℚ) : Decidable (collides p c) :=
  decidable_of_iff _ (collides_iff_sq p c).symm

/-- Coin-collision loop of lines 212-218: scan the players in dict
order; the first colliding player scores one point, the coin is
removed, and the `break` leaves the remaining players unchecked. -/
def resolve_coin : List (Nat × Player) → ℚ × ℚ → List (Nat × Player) × Option (ℚ × ℚ)
  | [], c => ([], some c)
  | (pid, p) :: rest, c =>
    if collides p c then
      ((pid, { p with score := p.score + 1 }) :: rest, none)
    else
      ((pid, p) :: (resolve_coin rest c).1, (resolve_coin rest c).2)

/-- The motion-integration and coin-collision part of one `game_loop`
iteration (lines 204-218), run only while a round is active. -/
def sim_step (dt : ℚ) (w : World) : World :=
  match w.coin with
  | some c =>
    { w with
      players := (resolve_coin (w.players.map fun pr => (pr.1, move_player dt pr.2)) c).1,
      coin := (resolve_coin (w.players.map fun pr => (pr.1, move_player dt pr.2)) c).2 }
  | none =>
    { w with players := w.players.map fun pr => (pr.1, move_player dt pr.2) }

def game_tick (t dt : ℚ) (rs : Nat → ℚ × ℚ) (w : World) : World :=
  if w.game_active then
    if (sim_step dt w).game_end_time ≤ t then end_round t (sim_step dt w)
    else sim_step dt w
  else
    if w.intermission_end ≠ 0 ∧ w.intermission_end ≤ t ∧ w.players ≠ [] then
      start_round t rs w
    else w

/-! ### Events and reachability

An event is one completed unit of asynchronous work together with the
random draws and clock readings it consumed.  `ValidEv` records what
the interpreter guarantees about those parameters: `random.uniform(a, b)`
lies in `[a, b]` and `time.time()` is non-decreasing, so each tick's
`dt = now - last` is non-negative.  The `Reach` relation also logs, in
order, every pid issued by a registration. -/

inductive Ev where
  | connect (x0 y0 t : ℚ) (rs : Nat → ℚ × ℚ)
  | disconnect (pid : Nat)
  | tick (t dt : ℚ) (rs : Nat → ℚ × ℚ)
  | coinTimer (cx cy : ℚ)
  | inputDone (pid : Nat) (vx vy : ℚ)

def inSpawnRange (q : ℚ × ℚ) : Prop :=
  50 ≤ q.1 ∧ q.1 ≤ MAP_W - 50 ∧ 50 ≤ q.2 ∧ q.2 ≤ MAP_H - 50

instance (q : ℚ × ℚ) : Decidable (inSpawnRange q) := by
  unfold inSpawnRange; infer_instance

def ValidEv : Ev → Prop
  | .connect x0 y0 _ rs => inSpawnRange (x0, y0) ∧ ∀ n, inSpawnRange (rs n)
  | .disconnect _ => True
  | .tick _ dt rs => 0 ≤ dt ∧ ∀ n, inSpawnRange (rs n)
  | .coinTimer cx cy => 20 ≤ cx ∧ cx ≤ MAP_W - 20 ∧ 20 ≤ cy ∧ cy ≤ MAP_H - 20
  | .inputDone _ _ _ => True

def stepEv : Ev → World → World
  | .connect x0 y0 t rs, w => handle_connect x0 y0 t rs w
  | .disconnect pid, w => handle_disconnect pid w
  | .tick t dt rs, w => game_tick t dt rs w
  | .coinTimer cx cy, w => spawn_coin cx cy w
  | .inputDone pid vx vy, w => apply_input pid vx vy w

/-- Pids issued by an event: a registration issues the current `next_pid`. -/
def issuedBy : Ev → World → List Nat
  | .connect _ _ _ _, w => [w.next_pid]
  | _, _ => []

/-- Reachable worlds, together with the ordered log of issued pids. -/
inductive Reach : World → List Nat → Prop where
  | init : Reach initWorld []
  | step (w : World) (log : List Nat) (e : Ev) (hw : Reach w log)
      (he : ValidEv e) : Reach (stepEv e w) (log ++ issuedBy e w)

/-! ### Invariants -/

/-- The position bounds the simulation clamps into:
`[PLAYER_R, MAP_W - PLAYER_R] × [PLAYER_R, MAP_H - PLAYER_R]`. -/
def inBounds (p : Player) : Prop :=
  PLAYER_R ≤ p.x ∧ p.x ≤ MAP_W - PLAYER_R ∧ PLAYER_R ≤ p.y ∧ p.y ≤ MAP_H - PLAYER_R

instance (p : Player) : Decidable (inBounds p) := by
  unfold inBounds; infer_instance

/-- State invariant maintained by every transition: registry keys are
strictly increasing (dict insertion order equals pid order), all keys
are below `next_pid`, every position is in bounds, and `next_pid ≥ 1`. -/
def WInv (w : World) : Prop :=
  (w.players.map Prod.fst).Pairwise (· < ·) ∧
  (∀ pid ∈ w.players.map Prod.fst, pid < w.next_pid) ∧
  (∀ pr ∈ w.players, inBounds pr.2) ∧
  1 ≤ w.next_pid

/-- Number of coins in the world: the coin is an optional singleton. -/
def coinCount (w : World) : Nat := w.coin.elim 0 fun _ => 1

/-! ### Concrete fixtures used by witnesses and counterexamples -/

def rsFix : Nat → ℚ × ℚ := fun _ => (100, 200)

def c9World : World :=
  { initWorld with players :=
      [(1, { x := 100, y := 100, vx := 1, vy := 0, score := 3,
             color := get_color_for_pid 1 })] }

def c9Player : Player :=
  { x := 100, y := 200, vx := 0, vy := 0, score := 0,
    color := get_color_for_pid 1 }

def c1World : World :=
  { initWorld with
    players :=
      [(1, { x := 100, y := 100, vx := 0, vy := 0, score := 2,
             color := get_color_for_pid 1 }),
       (2, { x := 200, y := 200, vx := 0, vy := 0, score := 5,
             color := get_color_for_pid 2 })],
    next_pid := 3,
    game_active := true }

def c6P1 : Player :=
  { x := 100, y := 200, vx := 0, vy := 0, score := 0,
    color := get_color_for_pid 1 }

def c6World : World :=
  { initWorld with
    players :=
      [(1, c6P1),
       (2, { x := 400, y := 300, vx := 0, vy := 0, score := 0,
             color := get_color_for_pid 2 })],
    next_pid := 3,
    game_active := true,
    game_end_time := 500,
    coin := some (100, 200) }

/-- World reached by one registration at time 0: one player, round active. -/
def c2World : World := stepEv (Ev.connect 100 200 0 rsFix) initWorld

def c2Player : Player :=
  { x := 100, y := 200, vx := 0, vy := 0, score := 0,
    color := get_color_for_pid 1 }

/-- After the first round (started at time 0) ends at time 180: one
player, intermission armed until 190. -/
def c7World : World := stepEv (Ev.tick 180 1 rsFix) c2World

/-- `c2World`, written out as an explicit record. -/
def c2WorldLit : World :=
  { players := [(1, c2Player)], next_pid := 2, coin := none,
    game_active := true, game_end_time := 180, intermission_end := 0,
    last_winner := none }

/-- `c7World`, written out as an explicit record. -/
def c7WorldLit : World :=
  { players := [(1, c2Player)], next_pid := 2, coin := none,
    game_active := false, game_end_time := 180, intermission_end := 190,
    last_winner := some 1 }

/-- A second registration arriving at time 181, well before the
intermission deadline 190. -/
def c7Ev : Ev := Ev.connect 100 200 181 rsFix

/-! ## Helper lemmas -/

theorem sq_add_sq_ne_zero {a b : ℝ} (h : a ≠ 0 ∨ b ≠ 0) : a ^ 2 + b ^ 2 ≠ 0 := by
  rcases h with h | h
  · have h1 : 0 < a ^ 2 := lt_of_le_of_ne (sq_nonneg a) (Ne.symm (pow_ne_zero 2 h))
    nlinarith [sq_nonneg b]
  · have h1 : 0 < b ^ 2 := lt_of_le_of_ne (sq_nonneg b) (Ne.symm (pow_ne_zero 2 h))
    nlinarith [sq_nonneg a]

theorem div_hypot_sq (vx vy : ℝ) (h : vx ^ 2 + vy ^ 2 ≠ 0) :
    (vx / hypot vx vy) ^ 2 + (vy / hypot vx vy) ^ 2 = 1 := by
  unfold hypot
  rw [div_pow, div_pow, div_add_div_same, Real.sq_sqrt (by positivity), div_self h]

theorem le_clamp {v a b : ℚ} : a ≤ clamp v a b :=
  le_max_left a (min b v)

theorem clamp_le {v a b : ℚ} (hab : a ≤ b) : clamp v a b ≤ b :=
  max_le hab (min_le_left b v)

theorem move_player_inBounds (dt : ℚ) (p : Player) : inBounds (move_player dt p) := by
  unfold inBounds move_player
  refine ⟨le_clamp, clamp_le ?_, le_clamp, clamp_le ?_⟩ <;>
    norm_num [PLAYER_R, MAP_W, MAP_H]

theorem move_player_score (dt : ℚ) (p : Player) :
    (move_player dt p).score = p.score := rfl

theorem inSpawnRange_inBounds {x y : ℚ} (h : inSpawnRange (x, y)) :
    PLAYER_R ≤ x ∧ x ≤ MAP_W - PLAYER_R ∧ PLAYER_R ≤ y ∧ y ≤ MAP_H - PLAYER_R := by
  obtain ⟨h1, h2, h3, h4⟩ := h
  norm_num [MAP_W, MAP_H, PLAYER_R] at *
  exact ⟨by linarith, by linarith, by linarith, by linarith⟩

theorem map_fst_reassign (l : List (Nat × Player)) (f : Nat × Player → Player) :
    (l.map fun pr => (pr.1, f pr)).map Prod.fst = l.map Prod.fst := by
  rw [List.map_map]
  rfl

theorem map_fst_update (l : List (Nat × Player)) (pid : Nat) (f : Player → Player) :
    (l.map fun pr =>
      if pr.1 = pid then (pr.1, f pr.2) else pr).map Prod.fst = l.map Prod.fst := by
  induction l with
  | nil => rfl
  | cons hd tl ih => by_cases h : hd.1 = pid <;> simp [h, ih]

theorem resolve_coin_fst (ps : List (Nat × Player)) (c : ℚ × ℚ) :
    ((resolve_coin ps c).1).map Prod.fst = ps.map Prod.fst := by
  induction ps with
  | nil => rfl
  | cons hd tl ih =>
    obtain ⟨pid, p⟩ := hd
    by_cases hc : collides p c <;> simp [resolve_coin, hc, ih]

theorem resolve_coin_mem (ps : List (Nat × Player)) (c : ℚ × ℚ) :
    ∀ pr ∈ (resolve_coin ps c).1,
      ∃ q ∈ ps, pr.1 = q.1 ∧ pr.2.x = q.2.x ∧ pr.2.y = q.2.y := by
  induction ps with
  | nil => intro pr hpr; simp [resolve_coin] at hpr
  | cons hd tl ih =>
    obtain ⟨pid, p⟩ := hd
    intro pr hpr
    by_cases hc : collides p c
    · simp only [resolve_coin, if_pos hc, List.mem_cons] at hpr
      rcases hpr with rfl | hpr
      · exact ⟨(pid, p), List.mem_cons_self _ _, rfl, rfl, rfl⟩
      · exact ⟨pr, List.mem_cons_of_mem _ hpr, rfl, rfl, rfl⟩
    · simp only [resolve_coin, if_neg hc, List.mem_cons] at hpr
      rcases hpr with rfl | hpr
      · exact ⟨(pid, p), List.mem_cons_self _ _, rfl, rfl, rfl⟩
      · obtain ⟨q, hq, hq1, hq2, hq3⟩ := ih pr hpr
        exact ⟨q, List.mem_cons_of_mem _ hq, hq1, hq2, hq3⟩

theorem resolve_coin_coin (ps : List (Nat × Player)) (c : ℚ × ℚ) :
    (resolve_coin ps c).2 = some c ∨ (resolve_coin ps c).2 = none := by
  induction ps with
  | nil => exact Or.inl rfl
  | cons hd tl ih =>
    obtain ⟨pid, p⟩ := hd
    by_cases hc : collides p c <;> simp [resolve_coin, hc, ih]

/-! ### The winner scan of end_round -/

theorem findBest_all_le (ps : List (Nat × Player)) (bp : Option Nat) (bs : ℤ)
    (hall : ∀ pr ∈ ps, (pr.2.score : ℤ) ≤ bs) : findBest ps bp bs = (bp, bs) := by
  induction ps generalizing bp bs with
  | nil => rfl
  | cons hd tl ih =>
    obtain ⟨pid, p⟩ := hd
    have hle : (p.score : ℤ) ≤ bs := hall (pid, p) (List.mem_cons_self _ _)
    simp only [findBest, if_neg (not_lt.mpr hle)]
    exact ih bp bs fun pr hpr => hall pr (List.mem_cons_of_mem _ hpr)

/-- If some player beats the running best score, the scan returns the
first player attaining the list maximum; with strictly increasing pids
that player also has the least pid among the tied maxima. -/
theorem findBest_finds_first_max (ps : List (Nat × Player)) (bp : Option Nat)
    (bs : ℤ) (hsorted : (ps.map Prod.fst).Pairwise (· < ·))
    (hex : ∃ pr ∈ ps, bs < (pr.2.score : ℤ)) :
    ∃ i p, (i, p) ∈ ps ∧ findBest ps bp bs = (some i, (p.score : ℤ)) ∧
      bs < (p.score : ℤ) ∧
      (∀ pr ∈ ps, (pr.2.score : ℤ) ≤ (p.score : ℤ)) ∧
      (∀ pr ∈ ps, pr.2.score = p.score → i ≤ pr.1) := by
  induction ps generalizing bp bs with
  | nil => simp at hex
  | cons hd tl ih =>
    obtain ⟨pid0, p0⟩ := hd
    have hsorted_tl : (tl.map Prod.fst).Pairwise (· < ·) := by
      simp only [List.map_cons, List.pairwise_cons] at hsorted
      exact hsorted.2
    have hhead_lt : ∀ q ∈ tl, pid0 < q.1 := by
      simp only [List.map_cons, List.pairwise_cons] at hsorted
      intro q hq
      exact hsorted.1 q.1 (List.mem_map_of_mem Prod.fst hq)
    by_cases hbs : bs < (p0.score : ℤ)
    · simp only [findBest, if_pos hbs]
      by_cases htl : ∃ pr ∈ tl, (p0.score : ℤ) < (pr.2.score : ℤ)
      · obtain ⟨i, p, hmem, heq, hgt, hmax, hties⟩ :=
          ih (some pid0) (p0.score : ℤ) hsorted_tl htl
        refine ⟨i, p, List.mem_cons_of_mem _ hmem, heq, lt_trans hbs hgt, ?_, ?_⟩
        · intro pr hpr
          rcases List.mem_cons.mp hpr with rfl | hpr
          · exact le_of_lt hgt
          · exact hmax pr hpr
        · intro pr hpr hsc
          rcases List.mem_cons.mp hpr with rfl | hpr
          · exfalso
            have hsc2 : p0.score = p.score := hsc
            rw [hsc2] at hgt
            exact lt_irrefl _ hgt
          · exact hties pr hpr hsc
      · push_neg at htl
        rw [findBest_all_le tl (some pid0) (p0.score : ℤ) htl]
        refine ⟨pid0, p0, List.mem_cons_self _ _, rfl, hbs, ?_, ?_⟩
        · intro pr hpr
          rcases List.mem_cons.mp hpr with rfl | hpr
          · exact le_refl _
          · exact htl pr hpr
        · intro pr hpr _
          rcases List.mem_cons.mp hpr with rfl | hpr
          · exact le_refl _
          · exact le_of_lt (hhead_lt pr hpr)
    · simp only [findBest, if_neg hbs]
      have hex2 : ∃ pr ∈ tl, bs < (pr.2.score : ℤ) := by
        obtain ⟨pr, hpr, hlt⟩ := hex
        rcases List.mem_cons.mp hpr with rfl | hpr
        · exact absurd hlt hbs
        · exact ⟨pr, hpr, hlt⟩
      obtain ⟨i, p, hmem, heq, hgt, hmax, hties⟩ := ih bp bs hsorted_tl hex2
      have hp0_le : (p0.score : ℤ) ≤ bs := not_lt.mp hbs
      refine ⟨i, p, List.mem_cons_of_mem _ hmem, heq, hgt, ?_, ?_⟩
      · intro pr hpr
        rcases List.mem_cons.mp hpr with rfl | hpr
        · exact le_of_lt (lt_of_le_of_lt hp0_le hgt)
        · exact hmax pr hpr
      · intro pr hpr hsc
        rcases List.mem_cons.mp hpr with rfl | hpr
        · exfalso
          have hsc2 : p0.score = p.score := hsc
          rw [hsc2] at hp0_le
          exact absurd hgt (not_lt.mpr hp0_le)
        · exact hties pr hpr hsc

/-! ### The collision scan of the game loop -/

theorem resolve_coin_no_hit (ps : List (Nat × Player)) (c : ℚ × ℚ)
    (h : ∀ pr ∈ ps, ¬ collides pr.2 c) : resolve_coin ps c = (ps, some c) := by
  induction ps with
  | nil => rfl
  | cons hd tl ih =>
    obtain ⟨pid, p⟩ := hd
    have hn := h (pid, p) (List.mem_cons_self _ _)
    simp only [resolve_coin, if_neg hn]
    rw [ih fun pr hpr => h pr (List.mem_cons_of_mem _ hpr)]

theorem resolve_coin_hit (ps : List (Nat × Player)) (c : ℚ × ℚ)
    (hex : ∃ pr ∈ ps, collides pr.2 c) :
    ∃ pre e post, ps = pre ++ e :: post ∧
      (∀ pr ∈ pre, ¬ collides pr.2 c) ∧ collides e.2 c ∧
      resolve_coin ps c =
        (pre ++ (e.1, { e.2 with score := e.2.score + 1 }) :: post, none) := by
  induction ps with
  | nil => simp at hex
  | cons hd tl ih =>
    obtain ⟨pid, p⟩ := hd
    by_cases hc : collides p c
    · refine ⟨[], (pid, p), tl, rfl, by simp, hc, ?_⟩
      simp only [resolve_coin, if_pos hc, List.nil_append]
    · have hex2 : ∃ pr ∈ tl, collides pr.2 c := by
        obtain ⟨pr, hpr, hcol⟩ := hex
        rcases List.mem_cons.mp hpr with rfl | hpr
        · exact absurd hcol hc
        · exact ⟨pr, hpr, hcol⟩
      obtain ⟨pre, e, post, hsplit, hpre, hcol, hres⟩ := ih hex2
      refine ⟨(pid, p) :: pre, e, post, by rw [hsplit, List.cons_append], ?_, hcol, ?_⟩
      · intro pr hpr
        rcases List.mem_cons.mp hpr with rfl | hpr
        · exact hc
        · exact hpre pr hpr
      · simp only [resolve_coin, if_neg hc, hres, List.cons_append]

/-! ### Field-preservation facts for the transition functions -/

theorem start_round_next_pid (t : ℚ) (rs : Nat → ℚ × ℚ) (w : World) :
    (start_round t rs w).next_pid = w.next_pid := rfl

theorem end_round_next_pid (t : ℚ) (w : World) :
    (end_round t w).next_pid = w.next_pid := rfl

theorem end_round_players (t : ℚ) (w : World) :
    (end_round t w).players = w.players := rfl

theorem sim_step_next_pid (dt : ℚ) (w : World) :
    (sim_step dt w).next_pid = w.next_pid := by
  cases hc : w.coin <;> simp [sim_step, hc]

theorem game_tick_next_pid (t dt : ℚ) (rs : Nat → ℚ × ℚ) (w : World) :
    (game_tick t dt rs w).next_pid = w.next_pid := by
  unfold game_tick
  split_ifs <;>
    simp only [end_round_next_pid, sim_step_next_pid, start_round_next_pid]

theorem handle_connect_next_pid (x0 y0 t : ℚ) (rs : Nat → ℚ × ℚ) (w : World) :
    (handle_connect x0 y0 t rs w).next_pid = w.next_pid + 1 := by
  unfold handle_connect
  split_ifs <;> rfl

theorem spawn_coin_next_pid (cx cy : ℚ) (w : World) :
    (spawn_coin cx cy w).next_pid = w.next_pid := by
  unfold spawn_coin
  split_ifs <;> rfl

theorem apply_input_next_pid (pid : Nat) (vx vy : ℚ) (w : World) :
    (apply_input pid vx vy w).next_pid = w.next_pid := by
  unfold apply_input
  split_ifs <;> rfl

/-- In every reachable world, `next_pid` is one more than the number of
pids issued so far, and the issue log is exactly `[1, 2, ..., n]`. -/
theorem reach_log_spec (w : World) (log : List Nat) (h : Reach w log) :
    w.next_pid = log.length + 1 ∧ log = List.range' 1 log.length := by
  induction h with
  | init => exact ⟨rfl, rfl⟩
  | step w log e hw he ih =>
    obtain ⟨ih1, ih2⟩ := ih
    cases e with
    | connect x0 y0 t rs =>
      simp only [stepEv, issuedBy]
      constructor
      · rw [handle_connect_next_pid, List.length_append, ih1]
        simp
      · rw [List.length_append, ih1]
        simp only [List.length_cons, List.length_nil]
        rw [List.range'_1_concat]
        rw [← ih2, Nat.add_comm 1 log.length]
    | disconnect pid =>
      simp only [stepEv, issuedBy, List.append_nil]
      exact ⟨ih1, ih2⟩
    | tick t dt rs =>
      simp only [stepEv, issuedBy, List.append_nil]
      rw [game_tick_next_pid]
      exact ⟨ih1, ih2⟩
    | coinTimer cx cy =>
      simp only [stepEv, issuedBy, List.append_nil]
      rw [spawn_coin_next_pid]
      exact ⟨ih1, ih2⟩
    | inputDone pid vx vy =>
      simp only [stepEv, issuedBy, List.append_nil]
      rw [apply_input_next_pid]
      exact ⟨ih1, ih2⟩

/-! ### Preservation of the state invariant -/

theorem WInv_start_round (t : ℚ) (rs : Nat → ℚ × ℚ) (w : World)
    (hrs : ∀ n, inSpawnRange (rs n)) (h : WInv w) : WInv (start_round t rs w) := by
  obtain ⟨h1, h2, h3, h4⟩ := h
  refine ⟨?_, ?_, ?_, h4⟩
  · rw [start_round]
    rw [map_fst_reassign]
    exact h1
  · intro pid hpid
    rw [start_round, map_fst_reassign] at hpid
    exact h2 pid hpid
  · intro pr hpr
    rw [start_round] at hpr
    simp only [List.mem_map] at hpr
    obtain ⟨a, _, rfl⟩ := hpr
    exact inSpawnRange_inBounds (hrs a.1)

theorem WInv_registerPlayer (x0 y0 : ℚ) (w : World)
    (hxy : inSpawnRange (x0, y0)) (h : WInv w) : WInv (registerPlayer x0 y0 w) := by
  obtain ⟨h1, h2, h3, h4⟩ := h
  refine ⟨?_, ?_, ?_, ?_⟩
  · rw [registerPlayer]
    simp only [List.map_append, List.map_cons, List.map_nil]
    rw [List.pairwise_append]
    refine ⟨h1, List.pairwise_singleton _ _, ?_⟩
    intro a ha b hb
    simp only [List.mem_singleton] at hb
    subst hb
    exact h2 a ha
  · intro pid hpid
    rw [registerPlayer] at hpid
    simp only [List.map_append, List.map_cons, List.map_nil, List.mem_append,
      List.mem_singleton] at hpid
    rcases hpid with hpid | rfl
    · exact Nat.lt_succ_of_lt (h2 _ hpid)
    · exact Nat.lt_succ_self _
  · intro pr hpr
    rw [registerPlayer] at hpr
    simp only [List.mem_append, List.mem_singleton] at hpr
    rcases hpr with hpr | rfl
    · exact h3 pr hpr
    · exact inSpawnRange_inBounds hxy
  · exact Nat.le_succ_of_le h4

theorem WInv_handle_connect (x0 y0 t : ℚ) (rs : Nat → ℚ × ℚ) (w : World)
    (hxy : inSpawnRange (x0, y0)) (hrs : ∀ n, inSpawnRange (rs n))
    (h : WInv w) : WInv (handle_connect x0 y0 t rs w) := by
  unfold handle_connect
  split_ifs
  · exact WInv_start_round t rs _ hrs (WInv_registerPlayer x0 y0 w hxy h)
  · exact WInv_registerPlayer x0 y0 w hxy h

theorem WInv_handle_disconnect (pid : Nat) (w : World) (h : WInv w) :
    WInv (handle_disconnect pid w) := by
  obtain ⟨h1, h2, h3, h4⟩ := h
  have hsub : (handle_disconnect pid w).players.Sublist w.players :=
    List.filter_sublist w.players
  refine ⟨?_, ?_, ?_, h4⟩
  · exact h1.sublist (hsub.map Prod.fst)
  · intro q hq
    simp only [List.mem_map] at hq
    obtain ⟨pr, hpr, rfl⟩ := hq
    exact h2 _ (List.mem_map_of_mem Prod.fst (hsub.mem hpr))
  · intro pr hpr
    exact h3 pr (hsub.mem hpr)

theorem WInv_sim_step (dt : ℚ) (w : World) (h : WInv w) : WInv (sim_step dt w) := by
  obtain ⟨h1, h2, h3, h4⟩ := h
  have hmoved_fst : ((w.players.map fun pr =>
      (pr.1, move_player dt pr.2)).map Prod.fst) = w.players.map Prod.fst :=
    map_fst_reassign w.players _
  have hmoved_bounds : ∀ pr ∈ (w.players.map fun pr =>
      (pr.1, move_player dt pr.2)), inBounds pr.2 := by
    intro pr hpr
    simp only [List.mem_map] at hpr
    obtain ⟨a, _, rfl⟩ := hpr
    exact move_player_inBounds dt a.2
  cases hc : w.coin with
  | none =>
    refine ⟨?_, ?_, ?_, by rw [sim_step_next_pid]; exact h4⟩
    · simp only [sim_step, hc, hmoved_fst]
      exact h1
    · intro pid hpid
      rw [sim_step_next_pid]
      simp only [sim_step, hc, hmoved_fst] at hpid
      exact h2 pid hpid
    · intro pr hpr
      simp only [sim_step, hc] at hpr
      exact hmoved_bounds pr hpr
  | some c =>
    refine ⟨?_, ?_, ?_, by rw [sim_step_next_pid]; exact h4⟩
    · simp only [sim_step, hc, resolve_coin_fst, hmoved_fst]
      exact h1
    · intro pid hpid
      rw [sim_step_next_pid]
      simp only [sim_step, hc, resolve_coin_fst, hmoved_fst] at hpid
      exact h2 pid hpid
    · intro pr hpr
      simp only [sim_step, hc] at hpr
      obtain ⟨q, hq, _, hx, hy⟩ := resolve_coin_mem _ c pr hpr
      have hb := hmoved_bounds q hq
      unfold inBounds at hb ⊢
      rw [hx, hy]
      exact hb

theorem WInv_end_round (t : ℚ) (w : World) (h : WInv w) : WInv (end_round t w) := h

theorem WInv_game_tick (t dt : ℚ) (rs : Nat → ℚ × ℚ) (w : World)
    (hrs : ∀ n, inSpawnRange (rs n)) (h : WInv w) : WInv (game_tick t dt rs w) := by
  unfold game_tick
  split_ifs
  · exact WInv_end_round t _ (WInv_sim_step dt w h)
  · exact WInv_sim_step dt w h
  · exact WInv_start_round t rs w hrs h
  · exact h

theorem WInv_spawn_coin (cx cy : ℚ) (w : World) (h : WInv w) :
    WInv (spawn_coin cx cy w) := by
  unfold spawn_coin
  split_ifs <;> exact h

theorem WInv_apply_input (pid : Nat) (vx vy : ℚ) (w : World) (h : WInv w) :
    WInv (apply_input pid vx vy w) := by
  obtain ⟨h1, h2, h3, h4⟩ := h
  unfold apply_input
  split_ifs with hcase
  · exact ⟨h1, h2, h3, h4⟩
  · have hfst := map_fst_update w.players pid
      fun q => { q with vx := vx, vy := vy }
    refine ⟨?_, ?_, ?_, h4⟩
    · simp only [hfst]
      exact h1
    · intro q hq
      simp only [hfst] at hq
      exact h2 q hq
    · intro pr hpr
      simp only [List.mem_map] at hpr
      obtain ⟨a, ha, rfl⟩ := hpr
      by_cases hpid : a.1 = pid <;> simp only [hpid, if_pos, if_neg, ite_true,
        ite_false] <;> exact h3 a ha

theorem reach_WInv (w : World) (log : List Nat) (h : Reach w log) : WInv w := by
  induction h with
  | init =>
    exact ⟨List.Pairwise.nil, by simp [initWorld], by simp [initWorld], le_refl 1⟩
  | step w log e hw he ih =>
    cases e with
    | connect x0 y0 t rs => exact WInv_handle_connect x0 y0 t rs w he.1 he.2 ih
    | disconnect pid => exact WInv_handle_disconnect pid w ih
    | tick t dt rs => exact WInv_game_tick t dt rs w he.2 ih
    | coinTimer cx cy => exact WInv_spawn_coin cx cy w ih
    | inputDone pid vx vy => exact WInv_apply_input pid vx vy w ih

/-! ## Claim theorems -/

theorem norm_input_vel_sq (up down left right : Bool) :
    (norm_input_vel up down left right).1 ^ 2
      + (norm_input_vel up down left right).2 ^ 2 = 0 ∨
    (norm_input_vel up down left right).1 ^ 2
      + (norm_input_vel up down left right).2 ^ 2 = 1 := by
  have key : ∀ vx vy : ℝ,
      (if vx ≠ 0 ∨ vy ≠ 0 then (vx / hypot vx vy, vy / hypot vx vy)
       else (vx, vy)).1 ^ 2 +
      (if vx ≠ 0 ∨ vy ≠ 0 then (vx / hypot vx vy, vy / hypot vx vy)
       else (vx, vy)).2 ^ 2 = 0 ∨
      (if vx ≠ 0 ∨ vy ≠ 0 then (vx / hypot vx vy, vy / hypot vx vy)
       else (vx, vy)).1 ^ 2 +
      (if vx ≠ 0 ∨ vy ≠ 0 then (vx / hypot vx vy, vy / hypot vx vy)
       else (vx, vy)).2 ^ 2 = 1 := by
    intro vx vy
    by_cases h : vx ≠ 0 ∨ vy ≠ 0
    · right
      rw [if_pos h]
      exact div_hypot_sq vx vy (sq_add_sq_ne_zero h)
    · left
      rw [if_neg h]
      push_neg at h
      simp [h.1, h.2]
  exact key _ _

/-- Claim C5: for every input record, the velocity written by the input
processor has magnitude (`math.hypot` of its components, in exact real
arithmetic) exactly 0 — both axes cancel or no keys held — or exactly
1, never any other value. -/
theorem input_velocity_unit_or_zero (up down left right : Bool) :
    hypot (norm_input_vel up down left right).1
      (norm_input_vel up down left right).2 = 0 ∨
    hypot (norm_input_vel up down left right).1
      (norm_input_vel up down left right).2 = 1 := by
  rcases norm_input_vel_sq up down left right with h | h
  · left
    unfold hypot
    rw [h, Real.sqrt_zero]
  · right
    unfold hypot
    rw [h, Real.sqrt_one]

/-- Claim C8: a delayed input application whose target pid is no longer
in the registry is a silent no-op: the world is returned unchanged. -/
theorem apply_input_disconnected_noop (pid : Nat) (vx vy : ℚ) (w : World)
    (h : w.players.lookup pid = none) : apply_input pid vx vy w = w := by
  unfold apply_input
  simp [h]

theorem apply_input_disconnected_noop_witness :
    initWorld.players.lookup 1 = none ∧ apply_input 1 0 0 initWorld = initWorld :=
  ⟨rfl, apply_input_disconnected_noop 1 0 0 initWorld rfl⟩

/-- Claim C9: after every call to `start_round`, every connected
player's velocity is exactly (0, 0). -/
theorem start_round_zeroes_velocities (t : ℚ) (rs : Nat → ℚ × ℚ) (w : World) :
    ∀ pr ∈ (start_round t rs w).players, pr.2.vx = 0 ∧ pr.2.vy = 0 := by
  intro pr hpr
  simp only [start_round, List.mem_map] at hpr
  obtain ⟨a, ha, rfl⟩ := hpr
  exact ⟨rfl, rfl⟩

theorem start_round_zeroes_velocities_witness :
    (1, c9Player) ∈ (start_round 7 rsFix c9World).players ∧
      c9Player.vx = 0 ∧ c9Player.vy = 0 :=
  ⟨by simp [start_round, c9World, c9Player, rsFix],
   start_round_zeroes_velocities 7 rsFix c9World (1, c9Player)
     (by simp [start_round, c9World, c9Player, rsFix])⟩

theorem rsFix_inSpawnRange : ∀ n, inSpawnRange (rsFix n) := by
  intro n
  norm_num [inSpawnRange, rsFix, MAP_W, MAP_H]

theorem validEv_connect_fix (t : ℚ) : ValidEv (Ev.connect 100 200 t rsFix) :=
  ⟨by norm_num [inSpawnRange, MAP_W, MAP_H], rsFix_inSpawnRange⟩

theorem validEv_tick_fix (t : ℚ) : ValidEv (Ev.tick t 1 rsFix) :=
  ⟨by norm_num, rsFix_inSpawnRange⟩

theorem reach_c2World : Reach c2World [1] :=
  Reach.step initWorld [] (Ev.connect 100 200 0 rsFix) Reach.init
    (validEv_connect_fix 0)

theorem reach_c7World : Reach c7World [1] :=
  Reach.step c2World [1] (Ev.tick 180 1 rsFix) reach_c2World
    (validEv_tick_fix 180)

theorem c2World_eq : c2World = c2WorldLit := by
  simp only [c2World, c2WorldLit, stepEv, handle_connect, registerPlayer,
    start_round, initWorld, rsFix, c2Player, get_color_for_pid, palette]
  norm_num [GAME_DURATION]

theorem c7World_eq : c7World = c7WorldLit := by
  rw [show c7World = stepEv (Ev.tick 180 1 rsFix) c2World from rfl, c2World_eq]
  simp only [stepEv, game_tick, sim_step, move_player, clamp, end_round,
    findBest, c2WorldLit, c7WorldLit, c2Player, max_def, min_def]
  norm_num [INTERMISSION, PLAYER_R, PLAYER_SPEED, MAP_W, MAP_H]

/-- Claim C2: in every reachable world, every player's position
satisfies `PLAYER_R ≤ x ≤ MAP_W - PLAYER_R` and
`PLAYER_R ≤ y ≤ MAP_H - PLAYER_R` — this covers the initial random
spawn, the respawns of `start_round`, and every motion-integration
tick. -/
theorem player_positions_in_bounds (w : World) (log : List Nat)
    (h : Reach w log) :
    ∀ pr ∈ w.players,
      PLAYER_R ≤ pr.2.x ∧ pr.2.x ≤ MAP_W - PLAYER_R ∧
      PLAYER_R ≤ pr.2.y ∧ pr.2.y ≤ MAP_H - PLAYER_R :=
  fun pr hpr => (reach_WInv w log h).2.2.1 pr hpr

theorem player_positions_in_bounds_witness :
    PLAYER_R ≤ c2Player.x ∧ c2Player.x ≤ MAP_W - PLAYER_R ∧
    PLAYER_R ≤ c2Player.y ∧ c2Player.y ≤ MAP_H - PLAYER_R :=
  player_positions_in_bounds c2World [1] reach_c2World (1, c2Player)
    (List.Mem.head _)

/-- Claim C3: over every sequence of registrations and disconnections,
the pids issued by registration are strictly increasing, never
repeated (even after the holder disconnects), and are exactly
1, 2, ..., n. -/
theorem issued_pids_strictly_increasing (w : World) (log : List Nat)
    (h : Reach w log) :
    log.Pairwise (· < ·) ∧ log.Nodup ∧ log = List.range' 1 log.length := by
  have h2 := (reach_log_spec w log h).2
  have hp : log.Pairwise (· < ·) := by
    rw [h2]
    exact List.pairwise_lt_range' 1 log.length
  exact ⟨hp, hp.imp Nat.ne_of_lt, h2⟩

theorem issued_pids_strictly_increasing_witness :
    ([1] : List Nat).Pairwise (· < ·) ∧ ([1] : List Nat).Nodup ∧
      ([1] : List Nat) = List.range' 1 ([1] : List Nat).length :=
  issued_pids_strictly_increasing c2World [1] reach_c2World

/-- Claim C4: the coin count of every reachable world is 0 or 1 (the
coin is an optional singleton); the spawner creates a coin only when a
round is active and no coin exists (and is a no-op otherwise); and
`start_round`, `end_round`, and collision resolution only remove it. -/
theorem coin_at_most_one :
    (∀ w log, Reach w log → coinCount w ≤ 1) ∧
    (∀ cx cy w, ¬ (w.game_active = true ∧ w.coin = none) →
        spawn_coin cx cy w = w) ∧
    (∀ cx cy w, w.game_active = true → w.coin = none →
        (spawn_coin cx cy w).coin = some (cx, cy)) ∧
    (∀ t rs w, (start_round t rs w).coin = none) ∧
    (∀ t w, (end_round t w).coin = none) ∧
    (∀ ps c, (resolve_coin ps c).2 = some c ∨ (resolve_coin ps c).2 = none) := by
  refine ⟨?_, ?_, ?_, fun t rs w => rfl, fun t w => rfl, resolve_coin_coin⟩
  · intro w log _
    cases hc : w.coin <;> simp [coinCount, hc]
  · intro cx cy w h
    unfold spawn_coin
    rw [if_neg h]
  · intro cx cy w ha hc
    unfold spawn_coin
    rw [if_pos ⟨ha, hc⟩]

theorem coin_at_most_one_witness :
    coinCount initWorld ≤ 1 ∧
    spawn_coin 50 60 initWorld = initWorld ∧
    (spawn_coin 50 60 c1World).coin = some (50, 60) ∧
    (start_round 0 rsFix initWorld).coin = none ∧
    (end_round 0 initWorld).coin = none ∧
    ((resolve_coin [] (50, 60)).2 = some (50, 60) ∨
      (resolve_coin [] (50, 60)).2 = none) :=
  ⟨coin_at_most_one.1 initWorld [] Reach.init,
   coin_at_most_one.2.1 50 60 initWorld (by simp [initWorld]),
   coin_at_most_one.2.2.1 50 60 c1World rfl rfl,
   coin_at_most_one.2.2.2.1 0 rsFix initWorld,
   coin_at_most_one.2.2.2.2.1 0 initWorld,
   coin_at_most_one.2.2.2.2.2 [] (50, 60)⟩

/-- Claim C1: at every `end_round` with at least one connected player,
`last_winner` is set to the pid of the connected player with the
strictly maximum score, ties broken by the lowest pid among the tied
players (registry iteration order is pid order, by `reach_WInv`); with
no players connected, `last_winner` is set to `none`. -/
theorem end_round_winner (w : World) (t : ℚ)
    (hsorted : (w.players.map Prod.fst).Pairwise (· < ·)) :
    (w.players = [] → (end_round t w).last_winner = none) ∧
    (w.players ≠ [] → ∃ i p, (i, p) ∈ w.players ∧
      (end_round t w).last_winner = some i ∧
      (∀ pr ∈ w.players, pr.2.score ≤ p.score) ∧
      (∀ pr ∈ w.players, pr.2.score = p.score → i ≤ pr.1)) := by
  constructor
  · intro h
    simp [end_round, h]
  · intro h
    have hex : ∃ pr ∈ w.players, (-1 : ℤ) < (pr.2.score : ℤ) := by
      obtain ⟨pr, hpr⟩ := List.exists_mem_of_ne_nil w.players h
      exact ⟨pr, hpr, lt_of_lt_of_le (by norm_num) (Int.natCast_nonneg _)⟩
    obtain ⟨i, p, hmem, heq, _, hmax, hties⟩ :=
      findBest_finds_first_max w.players none (-1) hsorted hex
    refine ⟨i, p, hmem, ?_, ?_, hties⟩
    · show (if w.players ≠ [] then (findBest w.players none (-1)).1 else none)
        = some i
      rw [if_pos h, heq]
    · intro pr hpr
      exact_mod_cast hmax pr hpr

theorem end_round_winner_witness :
    c1World.players ≠ [] ∧
    ∃ i p, (i, p) ∈ c1World.players ∧
      (end_round 0 c1World).last_winner = some i ∧
      (∀ pr ∈ c1World.players, pr.2.score ≤ p.score) ∧
      (∀ pr ∈ c1World.players, pr.2.score = p.score → i ≤ pr.1) :=
  ⟨by simp [c1World],
   (end_round_winner c1World 0 (by decide)).2 (by simp [c1World])⟩

/-- Claim C6: on a tick with a coin present, if any player is within
`PLAYER_R + COIN_R` of the coin after motion integration, then the
first such player in registry order scores exactly one point, the coin
is removed, and the players before and after it are unchanged (motion
itself never changes a score). -/
theorem coin_collision_first_player (w : World) (t dt : ℚ)
    (rs : Nat → ℚ × ℚ) (c : ℚ × ℚ)
    (hact : w.game_active = true) (hc : w.coin = some c)
    (hex : ∃ pr ∈ w.players.map fun pr => (pr.1, move_player dt pr.2),
      collides pr.2 c) :
    (∀ dt2 p, (move_player dt2 p).score = p.score) ∧
    ∃ pre e post,
      (w.players.map fun pr => (pr.1, move_player dt pr.2)) = pre ++ e :: post ∧
      (∀ pr ∈ pre, ¬ collides pr.2 c) ∧ collides e.2 c ∧
      (game_tick t dt rs w).coin = none ∧
      (game_tick t dt rs w).players =
        pre ++ (e.1, { e.2 with score := e.2.score + 1 }) :: post := by
  obtain ⟨pre, e, post, hsplit, hpre, hcol, hres⟩ := resolve_coin_hit _ c hex
  have hsim_p : (sim_step dt w).players =
      pre ++ (e.1, { e.2 with score := e.2.score + 1 }) :: post := by
    simp only [sim_step, hc, hres]
  have hsim_c : (sim_step dt w).coin = none := by
    simp only [sim_step, hc, hres]
  refine ⟨fun dt2 p => rfl, pre, e, post, hsplit, hpre, hcol, ?_, ?_⟩
  · unfold game_tick
    rw [if_pos hact]
    split_ifs
    · rfl
    · exact hsim_c
  · unfold game_tick
    rw [if_pos hact]
    split_ifs
    · rw [end_round_players]
      exact hsim_p
    · exact hsim_p

theorem coin_collision_first_player_witness :
    (∀ dt2 p, (move_player dt2 p).score = p.score) ∧
    ∃ pre e post,
      (c6World.players.map fun pr => (pr.1, move_player 1 pr.2)) =
        pre ++ e :: post ∧
      (∀ pr ∈ pre, ¬ collides pr.2 (100, 200)) ∧ collides e.2 (100, 200) ∧
      (game_tick 0 1 rsFix c6World).coin = none ∧
      (game_tick 0 1 rsFix c6World).players =
        pre ++ (e.1, { e.2 with score := e.2.score + 1 }) :: post :=
  coin_collision_first_player c6World 0 1 rsFix (100, 200) rfl rfl
    ⟨(1, move_player 1 c6P1), List.mem_map_of_mem _ (List.Mem.head _),
     (collides_iff_sq (move_player 1 c6P1) (100, 200)).mpr
       (by norm_num [move_player, clamp, c6P1, max_def, min_def,
         PLAYER_R, COIN_R, MAP_W, MAP_H])⟩

/-- Claim C7 (amended): the game-loop transition from Intermission to
Active fires only when an intermission deadline is armed (nonzero) and
has elapsed and at least one player is connected; a tick while
inactive with zero players connected changes nothing (in particular no
deadline is re-armed); and a registration while the round is inactive
starts a round immediately, regardless of any pending deadline. -/
theorem intermission_to_active_conditions :
    (∀ w t dt rs, w.game_active = false →
      (game_tick t dt rs w).game_active = true →
      w.intermission_end ≠ 0 ∧ w.intermission_end ≤ t ∧ w.players ≠ []) ∧
    (∀ w t dt rs, w.game_active = false → w.players = [] →
      game_tick t dt rs w = w) ∧
    (∀ w x0 y0 t rs, w.game_active = false →
      (handle_connect x0 y0 t rs w).game_active = true) := by
  refine ⟨?_, ?_, ?_⟩
  · intro w t dt rs hact htrans
    unfold game_tick at htrans
    rw [if_neg (by simp [hact])] at htrans
    by_cases hcond :
        w.intermission_end ≠ 0 ∧ w.intermission_end ≤ t ∧ w.players ≠ []
    · exact hcond
    · rw [if_neg hcond, hact] at htrans
      exact absurd htrans (by simp)
  · intro w t dt rs hact hplayers
    unfold game_tick
    rw [if_neg (by simp [hact]), if_neg (by simp [hplayers])]
  · intro w x0 y0 t rs hact
    unfold handle_connect
    rw [if_pos ⟨hact, by simp [registerPlayer]⟩]
    rfl

theorem intermission_to_active_conditions_witness :
    (c7World.intermission_end ≠ 0 ∧ c7World.intermission_end ≤ 191 ∧
      c7World.players ≠ []) ∧
    game_tick 5 1 rsFix initWorld = initWorld ∧
    (handle_connect 100 200 181 rsFix c7World).game_active = true :=
  ⟨intermission_to_active_conditions.1 c7World 191 1 rsFix
     (by rw [c7World_eq]; rfl) (by rw [c7World_eq]; rfl),
   intermission_to_active_conditions.2.1 initWorld 5 1 rsFix rfl rfl,
   intermission_to_active_conditions.2.2 c7World 100 200 181 rsFix
     (by rw [c7World_eq]; rfl)⟩

/-- Claim C7 is refuted as literally stated: in the reachable world
`c7World` the phase is Intermission with deadline 190 still pending,
yet a registration arriving at time 181 — before the deadline —
switches the phase to Active. -/
theorem intermission_early_start_cex :
    Reach c7World [1] ∧ c7World.game_active = false ∧
    c7World.intermission_end = 190 ∧ c7World.players ≠ [] ∧
    ValidEv c7Ev ∧ (stepEv c7Ev c7World).game_active = true ∧
    ¬ (c7World.intermission_end ≤ 181) := by
  refine ⟨reach_c7World, by rw [c7World_eq]; rfl, by rw [c7World_eq]; rfl,
    by rw [c7World_eq]; exact List.cons_ne_nil _ _,
    validEv_connect_fix 181, by rw [c7World_eq]; rfl, ?_⟩
  rw [c7World_eq]
  show ¬ ((190 : ℚ) ≤ 181)
  norm_num

/-- Claim C10: the display color is drawn from a fixed six-entry palette
cyclically in the identifier: `get_color_for_pid (pid + 6) = get_color_for_pid pid`. -/
theorem color_palette_cycles (pid : ℤ) :
    get_color_for_pid (pid + 6) = get_color_for_pid pid := by
  unfold get_color_for_pid
  have hlen : (palette.length : ℤ) = 6 := by rfl
  rw [hlen]
  have : (pid + 6 - 1) % (6 : ℤ) = (pid - 1) % (6 : ℤ) := by omega
  rw [this]

end CoinGame
